import Mathlib

/-!
Shallow embedding of the text-segmentation and video-job core of the
huistack backend (apps/lessons).  Strings are modelled as `List Char`;
the Python functions of `apps/lessons/utils.py`, the lemma-resolution
loop of `apps/lessons/api/v1/views.py` and the job runner of
`apps/lessons/video_jobs.py` are translated definition by definition.
-/

namespace Huistack

/-- Model of Python `str.isspace` / `str.strip` whitespace for a single
character (the Unicode code points Python treats as whitespace). -/
def isSpaceChar (c : Char) : Bool :=
  let n := c.toNat
  (9 ≤ n && n ≤ 13) || n == 32 || (28 ≤ n && n ≤ 31) || n == 133 || n == 160 ||
  n == 5760 || (8192 ≤ n && n ≤ 8202) || n == 8232 || n == 8233 || n == 8239 ||
  n == 8287 || n == 12288

/-- Model of `_is_ascii_letter_or_digit` from `apps/lessons/utils.py`:
`("0" <= ch <= "9") or ("A" <= ch <= "Z") or ("a" <= ch <= "z")`. -/
def is_ascii_letter_or_digit (c : Char) : Bool :=
  let n := c.toNat
  (48 ≤ n && n ≤ 57) || (65 ≤ n && n ≤ 90) || (97 ≤ n && n ≤ 122)

/-- Model of an ASCII decimal digit; used for `str.isdigit` and for the
digit groups of the SRT timestamp pattern. -/
def isDigitAscii (c : Char) : Bool :=
  let n := c.toNat
  48 ≤ n && n ≤ 57

/-- Numeric value of an ASCII digit character. -/
def digitVal (c : Char) : Nat := c.toNat - 48

/-- Model of `SENT_END = set("。！？!?；;‽")` from `apps/lessons/utils.py`. -/
def SENT_END : List Char := ['。', '！', '？', '!', '?', '；', ';', '‽']

/-- Model of `PUNCT_CHARS = set("，。！？；：、（）《》“”‘’—…·,.;:!?()[]\"'—…")`
from `apps/lessons/utils.py` (duplicated characters kept; membership is
what matters). -/
def PUNCT_CHARS : List Char :=
  ['，', '。', '！', '？', '；', '：', '、', '（', '）', '《', '》', '“', '”',
   '‘', '’', '—', '…', '·', ',', '.', ';', ':', '!', '?', '(', ')', '[', ']',
   '"', '\'', '—', '…']

/-- Model of Python `str.strip()`: remove whitespace characters from both
ends of the string. -/
def stripList (s : List Char) : List Char :=
  ((s.dropWhile isSpaceChar).reverse.dropWhile isSpaceChar).reverse

/-- Helper loop of `split_sentences`: scans the (already stripped) text,
accumulating characters into `buf`; on a character of `SENT_END` the
buffer (with that character) is stripped and emitted as one sentence.
A non-empty stripped tail is emitted at the end. -/
def splitSentencesAux (buf : List Char) : List Char → List (List Char)
  | [] =>
      let tail := stripList buf
      if tail.isEmpty then [] else [tail]
  | c :: rest =>
      if c ∈ SENT_END then
        stripList (buf ++ [c]) :: splitSentencesAux [] rest
      else
        splitSentencesAux (buf ++ [c]) rest

/-- Model of `split_sentences` from `apps/lessons/utils.py`: iterate over
`text.strip()`, closing a sentence at each character of `SENT_END`. -/
def split_sentences (text : List Char) : List (List Char) :=
  splitSentencesAux [] (stripList text)

/-- Token kinds of `tokenize`: `kind in {word, punct, latin, space, number}`. -/
inductive Kind where
  | word
  | punct
  | latin
  | space
  | number
deriving DecidableEq, Repr

/-- Fallback scanner of `tokenize` (the branch used when jieba is
unavailable): a whitespace run becomes one raw token, a maximal run of
ASCII letters/digits becomes one raw token, and any other character is
its own single-character raw token.  The scanning `while` loop advances
by at least one character per iteration, so the input length bounds the
number of iterations; the bound is carried as explicit fuel to keep the
definition computable by the kernel. -/
def scanRawFuel : Nat → List Char → List (List Char)
  | 0, _ => []
  | _, [] => []
  | fuel + 1, c :: rest =>
      if isSpaceChar c then
        (c :: rest.takeWhile isSpaceChar) ::
          scanRawFuel fuel (rest.dropWhile isSpaceChar)
      else if is_ascii_letter_or_digit c then
        (c :: rest.takeWhile is_ascii_letter_or_digit) ::
          scanRawFuel fuel (rest.dropWhile is_ascii_letter_or_digit)
      else
        [c] :: scanRawFuel fuel rest

/-- The fallback scanner at its own sufficient fuel. -/
def scanRaw (l : List Char) : List (List Char) := scanRawFuel l.length l

/-- Model of Python `t.isspace()` on a string: non-empty and every
character is whitespace. -/
def pyIsSpace (t : List Char) : Bool := !t.isEmpty && t.all isSpaceChar

/-- Model of Python `t.isdigit()` on a string: non-empty and every
character is a digit. -/
def pyIsDigit (t : List Char) : Bool := !t.isEmpty && t.all isDigitAscii

/-- Model of the Python test `t in PUNCT_CHARS`, where `PUNCT_CHARS` is a
set of single-character strings: true exactly when the string `t`
consists of one character that is a member of the set. -/
def inPunctChars : List Char → Bool
  | [c] => PUNCT_CHARS.contains c
  | _ => false

/-- Classification rule of `tokenize` (utils.py lines 72-81), applied to
one raw token: whitespace, then punctuation, then digits, then ASCII
letters/digits, else `word`. -/
def classify (t : List Char) : Kind :=
  if pyIsSpace t then .space
  else if inPunctChars t then .punct
  else if pyIsDigit t then .number
  else if t.all is_ascii_letter_or_digit then .latin
  else .word

/-- Classification loop of `tokenize` over an arbitrary raw-token list
(the list produced by the jieba collaborator or by the fallback
scanner): empty raw tokens are skipped, the rest are paired with their
kind. -/
def tokenizeRaw (raw : List (List Char)) : List (List Char × Kind) :=
  (raw.filter (fun t => !t.isEmpty)).map (fun t => (t, classify t))

/-- Model of `tokenize` from `apps/lessons/utils.py` on the fallback
path (jieba unavailable): scan, then classify. -/
def tokenize (text : List Char) : List (List Char × Kind) :=
  tokenizeRaw (scanRaw text)

/-- Model of `_parse_srt_timestamp` from `apps/lessons/utils.py`: strip,
then match the anchored pattern of one or two digits, a colon, two
digits, a colon, two digits, a comma and three digits; on a match return
`((hh * 60 + mm) * 60 + ss) * 1000 + ms`, else fail (the `ValueError`
branch is modelled as `none`).  The regex class `\d` is modelled as an
ASCII digit. -/
def parse_srt_timestamp (ts : List Char) : Option Nat :=
  match stripList ts with
  | [a, b, c, d, e, f, g, h, i, j, k] =>
      if isDigitAscii a && b == ':' && isDigitAscii c && isDigitAscii d &&
         e == ':' && isDigitAscii f && isDigitAscii g && h == ',' &&
         isDigitAscii i && isDigitAscii j && isDigitAscii k then
        some (((digitVal a * 60 + (10 * digitVal c + digitVal d)) * 60 +
          (10 * digitVal f + digitVal g)) * 1000 +
          (100 * digitVal i + 10 * digitVal j + digitVal k))
      else none
  | [a, b, c, d, e, f, g, h, i, j, k, l] =>
      if isDigitAscii a && isDigitAscii b && c == ':' && isDigitAscii d &&
         isDigitAscii e && f == ':' && isDigitAscii g && isDigitAscii h &&
         i == ',' && isDigitAscii j && isDigitAscii k && isDigitAscii l then
        some ((((10 * digitVal a + digitVal b) * 60 +
          (10 * digitVal d + digitVal e)) * 60 +
          (10 * digitVal g + digitVal h)) * 1000 +
          (100 * digitVal j + 10 * digitVal k + digitVal l))
      else none
  | _ => none

/-- Model of `text.replace("\r\n", "\n").replace("\r", "\n")` in
`parse_srt`: every CRLF pair and every remaining CR becomes LF. -/
def normalizeNewlines : List Char → List Char
  | [] => []
  | '\r' :: '\n' :: rest => '\n' :: normalizeNewlines rest
  | '\r' :: rest => '\n' :: normalizeNewlines rest
  | c :: rest => c :: normalizeNewlines rest

/-- Model of `.split("\n")` on the normalized text: the result always has
at least one (possibly empty) line. -/
def splitOnNl : List Char → List (List Char)
  | [] => [[]]
  | c :: rest =>
      if c = '\n' then [] :: splitOnNl rest
      else
        match splitOnNl rest with
        | [] => [[c]]
        | l :: ls => (c :: l) :: ls

/-- Line list `parse_srt` iterates over. -/
def srtLines (text : List Char) : List (List Char) :=
  splitOnNl (normalizeNewlines text)

/-- Truthiness of `lines[i].strip()` negated: the line is blank. -/
def isBlank (l : List Char) : Bool := (stripList l).isEmpty

/-- Non-blank line test. -/
def notBlank (l : List Char) : Bool := !(isBlank l)

/-- Model of the index-line test `re.match(r"^\d+$", lines[i].strip())`. -/
def isIndexLine (l : List Char) : Bool :=
  let s := stripList l
  !s.isEmpty && s.all isDigitAscii

/-- Model of the Python substring test `"-->" in line`. -/
def containsArrow : List Char → Bool
  | '-' :: '-' :: '>' :: _ => true
  | _ :: rest => containsArrow rest
  | [] => false

/-- Model of `line.split("-->")`: split on every non-overlapping
occurrence of the arrow separator. -/
def splitOnArrow : List Char → List (List Char)
  | '-' :: '-' :: '>' :: rest => [] :: splitOnArrow rest
  | c :: rest =>
      match splitOnArrow rest with
      | [] => [[c]]
      | l :: ls => (c :: l) :: ls
  | [] => [[]]

/-- Model of the timestamp-line handling of `parse_srt`: the unpacking
`start_str, end_str = [p.strip() for p in ts_line.split("-->")]` raises
unless the split has exactly two parts, and either `_parse_srt_timestamp`
may raise; all of it is caught, modelled as `none`. -/
def parseTsLine (tsLine : List Char) : Option (Nat × Nat) :=
  match splitOnArrow tsLine with
  | [a, b] =>
      match parse_srt_timestamp (stripList a), parse_srt_timestamp (stripList b) with
      | some s, some e => some (s, e)
      | _, _ => none
  | _ => none

/-- Index reached from `i` by a `while i < n and p(lines[i]): i += 1`
loop of `parse_srt`. -/
def skipWhile (p : List Char → Bool) (lines : List (List Char)) (i : Nat) : Nat :=
  if h : i < lines.length then
    if p (lines.get ⟨i, h⟩) then skipWhile p lines (i + 1) else i
  else i
termination_by lines.length - i

/-- Model of the text-collection loop of `parse_srt`: strip and collect
lines from `i` while they are non-blank. -/
def collectText (lines : List (List Char)) (i : Nat) : List (List Char) :=
  if h : i < lines.length then
    if notBlank (lines.get ⟨i, h⟩) then
      stripList (lines.get ⟨i, h⟩) :: collectText lines (i + 1)
    else []
  else []
termination_by lines.length - i

/-- Model of `" ".join(text_lines)`. -/
def joinSpace : List (List Char) → List Char
  | [] => []
  | [l] => l
  | l :: ls => l ++ ' ' :: joinSpace ls

/-- One cue as parsed from an SRT block. -/
abbrev Cue := Nat × Nat × List Char

/-- Outcome of one iteration of the scanning loop of `parse_srt`: either
continue at a new line index with the (possibly extended) cue list, or
stop with the final cue list. -/
inductive StepResult where
  | cont (i : Nat) (cues : List Cue)
  | stop (cues : List Cue)
deriving DecidableEq, Repr

/-- Optional numeric index line of a block: when the current line is a
pure-numeric line, the loop consumes it. -/
def idxAfterIndexLine (lines : List (List Char)) (i : Nat) : Nat :=
  if h : i < lines.length then
    (if isIndexLine (lines.get ⟨i, h⟩) then i + 1 else i)
  else i

/-- One iteration of the `while i < n` loop of `parse_srt`: skip blank
lines, consume an optional numeric index line, require a line containing
the arrow, parse its two timestamps, collect the text lines, and append
the cue when its joined text is non-empty; every malformed block is
skipped to the next blank line. -/
def parseSrtStep (lines : List (List Char)) (i : Nat) (cues : List Cue) :
    StepResult :=
  let i1 := skipWhile isBlank lines i
  if h1 : i1 < lines.length then
    let i2 := idxAfterIndexLine lines i1
    if h2 : i2 < lines.length then
      if containsArrow (lines.get ⟨i2, h2⟩) then
        let tsLine := stripList (lines.get ⟨i2, h2⟩)
        match parseTsLine tsLine with
        | none => .cont (skipWhile notBlank lines (i2 + 1)) cues
        | some (s, e) =>
            let textLines := collectText lines (i2 + 1)
            let i4 := skipWhile notBlank lines (i2 + 1)
            let cueText := stripList (joinSpace textLines)
            let cues2 := if cueText.isEmpty then cues else cues ++ [(s, e, cueText)]
            .cont (skipWhile isBlank lines i4) cues2
      else
        .cont (skipWhile notBlank lines i2) cues
    else
      .stop cues
  else
    .stop cues

/-- Fuelled iteration of the scanning loop of `parse_srt`; `none` means
the fuel ran out (shown below never to happen with enough fuel). -/
def parseSrtLoop (lines : List (List Char)) :
    Nat → Nat → List Cue → Option (List Cue)
  | 0, _, _ => none
  | fuel + 1, i, cues =>
      match parseSrtStep lines i cues with
      | .stop cs => some cs
      | .cont i2 cues2 => parseSrtLoop lines fuel i2 cues2

/-- Model of `parse_srt` from `apps/lessons/utils.py`, keeping the
fuel-exhaustion case observable as `none`. -/
def parse_srtChecked (text : List Char) : Option (List Cue) :=
  parseSrtLoop (srtLines text) ((srtLines text).length + 1) 0 []

/-- Model of `parse_srt` from `apps/lessons/utils.py`. -/
def parse_srt (text : List Char) : List Cue :=
  (parse_srtChecked text).getD []

/-! Lemma resolution of `ingest_text` / `ingest_srt`
(`apps/lessons/api/v1/views.py`).  The dictionary
(`Lemma.objects.filter(simplified=s).only("id").first()`) is modelled as
a function from a surface string to an optional lemma id; each call of
it is one dictionary lookup, counted by the `queries` component. -/

/-- Resolved token: text, kind, optional lemma id. -/
abbrev RTok := List Char × Kind × Option Nat

/-- Model of `missing_characters.add(ch)` (a Python set). -/
def insertChar (m : List Char) (c : Char) : List Char :=
  if c ∈ m then m else m ++ [c]

/-- Per-character fallback of the ingestion loop: for each character of
a word token with no exact match, one further dictionary lookup is
issued, the character is recorded as missing when it too has no match,
and one single-character token is emitted. Returns the emitted tokens,
the updated missing set and the updated query count. -/
def charFallback (dict : List Char → Option Nat) :
    List Char → List Char → Nat → List RTok × List Char × Nat
  | [], missing, q => ([], missing, q)
  | ch :: cs, missing, q =>
      let lem := dict [ch]
      let missing2 := if lem = none then insertChar missing ch else missing
      let r := charFallback dict cs missing2 (q + 1)
      (([ch], Kind.word, lem) :: r.1, r.2.1, r.2.2)

/-- The token loop of `ingest_text` (views.py lines 147-174; the
`ingest_srt` loop at lines 255-281 is identical): each `word` token
issues one dictionary lookup; on a miss it is expanded into
single-character tokens, each issuing one further lookup; tokens of any
other kind are stored with no lemma and issue no lookup. -/
def ingestTokensLoop (dict : List Char → Option Nat) :
    List (List Char × Kind) → List Char → Nat → List RTok × List Char × Nat
  | [], missing, q => ([], missing, q)
  | (text, kind) :: rest, missing, q =>
      if kind = Kind.word then
        match dict text with
        | some lid =>
            let r := ingestTokensLoop dict rest missing (q + 1)
            ((text, kind, some lid) :: r.1, r.2.1, r.2.2)
        | none =>
            let rc := charFallback dict text missing (q + 1)
            let r := ingestTokensLoop dict rest rc.2.1 rc.2.2
            (rc.1 ++ r.1, r.2.1, r.2.2)
      else
        let r := ingestTokensLoop dict rest missing q
        ((text, kind, none) :: r.1, r.2.1, r.2.2)

/-- Sentence loop of `ingest_text`: tokenize each sentence and run the
token loop, threading the missing set and the query count. -/
def ingestSentences (dict : List Char → Option Nat) :
    List (List Char) → List Char → Nat → List (List RTok) × List Char × Nat
  | [], missing, q => ([], missing, q)
  | s :: ss, missing, q =>
      let rt := ingestTokensLoop dict (tokenize s) missing q
      let r := ingestSentences dict ss rt.2.1 rt.2.2
      (rt.1 :: r.1, r.2.1, r.2.2)

/-- Dictionary lookups issued by one `ingest_text` submission over
`text` (sentence split, tokenize, lemma resolution). -/
def ingest_text_queries (dict : List Char → Option Nat) (text : List Char) : Nat :=
  (ingestSentences dict (split_sentences text) [] 0).2.2

/-- Dictionary lookups one token of the ingestion loop issues. -/
def tokenQueries (dict : List Char → Option Nat) (t : List Char × Kind) : Nat :=
  if t.2 = Kind.word then
    match dict t.1 with
    | some _ => 1
    | none => 1 + t.1.length
  else 0

/-! Video job runner (`apps/lessons/video_jobs.py`). -/

/-- Status values of `LessonVideoJob.Status` (models.py). -/
inductive JStatus where
  | pending
  | queued
  | processing
  | completed
  | failed
deriving DecidableEq, Repr

/-- Modelled fields of a `LessonVideoJob` record touched by the runner. -/
structure Job where
  status : JStatus
  total_frames : Nat
  processed_frames : Nat
  error_message : List Char
deriving DecidableEq, Repr

/-- Model of `LessonVideoJob.is_terminal` (models.py lines 188-190):
the status is in `{completed, failed}`. -/
def Job.is_terminal (j : Job) : Bool :=
  match j.status with
  | JStatus.completed => true
  | JStatus.failed => true
  | _ => false

/-- Environment one job run observes: the timestamped sentences of the
lesson (by their `start_ms`), whether the `cv2` import succeeded,
whether `cv2.VideoCapture` opens the uploaded video, and whether the
frame capture for the sentence at each position succeeds (a `false`
models the exception `_extract_frame_for_sentence` raises). -/
structure VideoEnv where
  sentences : List Nat
  cv2Available : Bool
  captureOpens : Bool
  frameOk : Nat → Bool

/-- Result of one run of the job runner: the final job record, the
sequence of status values assigned (saved) during the run, and how many
frame captures were attempted. -/
structure RunResult where
  job : Job
  trace : List JStatus
  attempts : Nat
deriving DecidableEq, Repr

/-- Message of `_fail_job` for a lesson with no timestamped sentences. -/
def noSentencesMsg : List Char :=
  "No timestamped sentences were found for this lesson.".toList

/-- Message of `_fail_job` when the `cv2` dependency is missing. -/
def noCv2Msg : List Char :=
  "opencv-python is required to process lesson videos.".toList

/-- Message of the `RuntimeError` raised when the capture does not open. -/
def openFailMsg : List Char := "Unable to open uploaded video.".toList

/-- Model of `_fail_job` (video_jobs.py lines 175-182): set status
`failed` and the error message (frame counters untouched). -/
def fail_job (j : Job) (msg : List Char) : Job :=
  { j with status := JStatus.failed, error_message := msg }

/-- The capture loop: one attempt per sentence in order; a successful
capture increments `processed_frames`, a failed one is skipped. -/
def captureLoop (frameOk : Nat → Bool) : Nat → Nat → Nat → Nat
  | 0, _, processed => processed
  | r + 1, idx, processed =>
      captureLoop frameOk r (idx + 1) (if frameOk idx then processed + 1 else processed)

/-- Model of `process_lesson_video_job` (video_jobs.py lines 67-146):
terminal guard, the no-sentences and no-cv2 failure paths, the
transition to `processing`, the capture-open check inside the guarded
block, the per-sentence capture loop, and the terminal transition. -/
def process_lesson_video_job (env : VideoEnv) (job : Job) : RunResult :=
  if job.is_terminal then ⟨job, [], 0⟩
  else if env.sentences.isEmpty then
    ⟨fail_job job noSentencesMsg, [JStatus.failed], 0⟩
  else if !env.cv2Available then
    ⟨fail_job job noCv2Msg, [JStatus.failed], 0⟩
  else
    let j1 : Job := { job with
      status := JStatus.processing, error_message := [], processed_frames := 0 }
    if !env.captureOpens then
      ⟨{ j1 with status := JStatus.failed, error_message := openFailMsg },
        [JStatus.processing, JStatus.failed], 0⟩
    else
      let k := captureLoop env.frameOk env.sentences.length 0 0
      ⟨{ j1 with status := JStatus.completed, processed_frames := k },
        [JStatus.processing, JStatus.completed], env.sentences.length⟩

/-! Theorems about the video job runner. -/

/-- Capture loop counts exactly the successful positions. -/
theorem captureLoop_eq_countP (ok : Nat → Bool) :
    ∀ (r idx acc : Nat),
      captureLoop ok r idx acc = acc + (List.range' idx r).countP ok := by
  intro r
  induction r with
  | zero => intro idx acc; simp [captureLoop]
  | succ r ih =>
      intro idx acc
      rw [captureLoop, ih, List.range'_succ, List.countP_cons]
      by_cases hok : ok idx <;> simp [hok] <;> omega

/-- Successes plus failures over a list of positions make up its length. -/
theorem countP_ok_eq_sub (ok : Nat → Bool) (l : List Nat) :
    l.countP ok = l.length - l.countP (fun i => !ok i) := by
  induction l with
  | nil => simp
  | cons a l ih =>
      simp only [List.countP_cons, List.length_cons]
      by_cases h : ok a <;> simp [h, ih] <;>
        have := List.countP_le_length (p := fun i => !ok i) (l := l) <;> omega

/-- C4 (confirmed).  Running the job runner on a job whose status is
terminal (completed or failed) is a no-op: the job record is returned
unchanged, no status is assigned, and no frame capture is attempted. -/
theorem video_job_terminal_noop (env : VideoEnv) (job : Job)
    (h : job.is_terminal = true) :
    process_lesson_video_job env job = ⟨job, [], 0⟩ := by
  simp [process_lesson_video_job, h]

/-- Witness for C4 at a concrete completed job: processed frames keep
their value and no capture is attempted. -/
theorem video_job_terminal_noop_witness :
    process_lesson_video_job ⟨[5], true, true, fun _ => true⟩
      ⟨JStatus.completed, 1, 1, []⟩ = ⟨⟨JStatus.completed, 1, 1, []⟩, [], 0⟩ :=
  video_job_terminal_noop ⟨[5], true, true, fun _ => true⟩
    ⟨JStatus.completed, 1, 1, []⟩ (by decide)

/-- C6 (confirmed).  A job over a lesson with zero timestamped sentences
goes from `queued` straight to `failed` with the descriptive message;
the status value `processing` is never assigned during the run. -/
theorem video_job_zero_sentences_direct_fail (env : VideoEnv) (job : Job)
    (hq : job.status = JStatus.queued) (hs : env.sentences = []) :
    (process_lesson_video_job env job).job.status = JStatus.failed ∧
    (process_lesson_video_job env job).job.error_message = noSentencesMsg ∧
    (process_lesson_video_job env job).trace = [JStatus.failed] ∧
    JStatus.processing ∉ (process_lesson_video_job env job).trace := by
  simp [process_lesson_video_job, Job.is_terminal, hq, hs, fail_job]

/-- Witness for C6: a queued job over an empty sentence list fails
directly. -/
theorem video_job_zero_sentences_direct_fail_witness :
    (process_lesson_video_job ⟨[], true, true, fun _ => true⟩
        ⟨JStatus.queued, 0, 0, []⟩).job.status = JStatus.failed ∧
    (process_lesson_video_job ⟨[], true, true, fun _ => true⟩
        ⟨JStatus.queued, 0, 0, []⟩).job.error_message = noSentencesMsg ∧
    (process_lesson_video_job ⟨[], true, true, fun _ => true⟩
        ⟨JStatus.queued, 0, 0, []⟩).trace = [JStatus.failed] ∧
    JStatus.processing ∉ (process_lesson_video_job ⟨[], true, true, fun _ => true⟩
        ⟨JStatus.queued, 0, 0, []⟩).trace :=
  video_job_zero_sentences_direct_fail ⟨[], true, true, fun _ => true⟩
    ⟨JStatus.queued, 0, 0, []⟩ rfl rfl

/-- C3 (counterexample).  A queued job with one timestamped sentence
whose video the decoder cannot open: the run assigns `processing` before
failing, so the claim that the status never takes the value `processing`
is false on the code. -/
theorem video_job_open_failure_cex :
    (process_lesson_video_job ⟨[0], true, false, fun _ => true⟩
        ⟨JStatus.queued, 1, 0, []⟩).trace = [JStatus.processing, JStatus.failed] ∧
    JStatus.processing ∈ (process_lesson_video_job ⟨[0], true, false, fun _ => true⟩
        ⟨JStatus.queued, 1, 0, []⟩).trace := by
  decide

/-- C3 (amended).  When the decoder cannot be opened, the job does end
`failed` with the descriptive message, but only after its status has
taken the value `processing`: the statuses assigned during the run are
exactly `processing` then `failed`. -/
theorem video_job_open_failure_processing_then_failed (env : VideoEnv) (job : Job)
    (hq : job.status = JStatus.queued) (hs : env.sentences ≠ [])
    (hcv : env.cv2Available = true) (hop : env.captureOpens = false) :
    (process_lesson_video_job env job).job.status = JStatus.failed ∧
    (process_lesson_video_job env job).job.error_message = openFailMsg ∧
    (process_lesson_video_job env job).trace = [JStatus.processing, JStatus.failed] := by
  have hse : env.sentences.isEmpty = false := by
    cases h : env.sentences with
    | nil => exact absurd h hs
    | cons a l => simp [List.isEmpty]
  simp [process_lesson_video_job, Job.is_terminal, hq, hse, hcv, hop]

/-- Witness for the amended C3 at a concrete environment. -/
theorem video_job_open_failure_processing_then_failed_witness :
    (process_lesson_video_job ⟨[7], true, false, fun _ => true⟩
        ⟨JStatus.queued, 1, 0, []⟩).job.status = JStatus.failed ∧
    (process_lesson_video_job ⟨[7], true, false, fun _ => true⟩
        ⟨JStatus.queued, 1, 0, []⟩).job.error_message = openFailMsg ∧
    (process_lesson_video_job ⟨[7], true, false, fun _ => true⟩
        ⟨JStatus.queued, 1, 0, []⟩).trace = [JStatus.processing, JStatus.failed] :=
  video_job_open_failure_processing_then_failed ⟨[7], true, false, fun _ => true⟩
    ⟨JStatus.queued, 1, 0, []⟩ rfl (by decide) rfl rfl

/-- C5 (confirmed).  A queued job over N timestamped sentences of which
k frame captures fail (0 < k < N) ends `completed` with
`processed_frames = N - k`: failed captures are skipped and do not
increment the counter, and they do not fail the job. -/
theorem video_job_partial_capture (env : VideoEnv) (job : Job)
    (hq : job.status = JStatus.queued) (hs : env.sentences ≠ [])
    (hcv : env.cv2Available = true) (hop : env.captureOpens = true)
    (hk0 : 0 < (List.range env.sentences.length).countP (fun i => !env.frameOk i))
    (hkN : (List.range env.sentences.length).countP (fun i => !env.frameOk i) <
      env.sentences.length) :
    (process_lesson_video_job env job).job.status = JStatus.completed ∧
    (process_lesson_video_job env job).job.processed_frames =
      env.sentences.length -
        (List.range env.sentences.length).countP (fun i => !env.frameOk i) := by
  have hse : env.sentences.isEmpty = false := by
    cases h : env.sentences with
    | nil => exact absurd h hs
    | cons a l => simp [List.isEmpty]
  have hloop := captureLoop_eq_countP env.frameOk env.sentences.length 0 0
  rw [← List.range_eq_range'] at hloop
  have hsub := countP_ok_eq_sub env.frameOk (List.range env.sentences.length)
  simp only [List.length_range] at hsub
  constructor
  · simp [process_lesson_video_job, Job.is_terminal, hq, hse, hcv, hop]
  · simp only [process_lesson_video_job, Job.is_terminal, hq, hse, hcv, hop]
    simp [hloop, hsub]

/-- Witness for C5: three sentences, the middle capture fails, the job
completes with two processed frames (the scenario of the spec's test
list). -/
theorem video_job_partial_capture_witness :
    0 < (List.range ([100, 200, 300] : List Nat).length).countP
        (fun i => !(fun j => decide (j ≠ 1)) i) ∧
    (process_lesson_video_job ⟨[100, 200, 300], true, true, fun j => decide (j ≠ 1)⟩
        ⟨JStatus.queued, 3, 0, []⟩).job.status = JStatus.completed ∧
    (process_lesson_video_job ⟨[100, 200, 300], true, true, fun j => decide (j ≠ 1)⟩
        ⟨JStatus.queued, 3, 0, []⟩).job.processed_frames =
      ([100, 200, 300] : List Nat).length -
        (List.range ([100, 200, 300] : List Nat).length).countP
          (fun i => !(fun j => decide (j ≠ 1)) i) :=
  ⟨by decide,
    video_job_partial_capture ⟨[100, 200, 300], true, true, fun j => decide (j ≠ 1)⟩
      ⟨JStatus.queued, 3, 0, []⟩ rfl (by decide) rfl rfl (by decide) (by decide)⟩

/-! Theorems about lemma resolution during ingestion. -/

/-- Character fallback issues one lookup per character. -/
theorem charFallback_queries (dict : List Char → Option Nat) :
    ∀ (cs missing : List Char) (q : Nat),
      (charFallback dict cs missing q).2.2 = q + cs.length := by
  intro cs
  induction cs with
  | nil => intro missing q; simp [charFallback]
  | cons ch cs ih =>
      intro missing q
      simp only [charFallback, ih, List.length_cons]
      omega

/-- The ingestion token loop issues, over its input, exactly the
per-token counts of `tokenQueries`: one lookup per `word` token plus,
on a miss, one per character; none for other kinds. -/
theorem ingestTokensLoop_queries (dict : List Char → Option Nat) :
    ∀ (toks : List (List Char × Kind)) (missing : List Char) (q : Nat),
      (ingestTokensLoop dict toks missing q).2.2 =
        q + (toks.map (tokenQueries dict)).sum := by
  intro toks
  induction toks with
  | nil => intro missing q; simp [ingestTokensLoop]
  | cons t rest ih =>
      intro missing q
      obtain ⟨text, kind⟩ := t
      by_cases hw : kind = Kind.word
      · subst hw
        cases hd : dict text with
        | some lid =>
            simp [ingestTokensLoop, hd, ih, tokenQueries]
            try omega
        | none =>
            simp [ingestTokensLoop, hd, ih, charFallback_queries, tokenQueries]
            try omega
      · simp [ingestTokensLoop, hw, ih, tokenQueries]
        try omega

/-- The sentence loop sums the token-loop counts. -/
theorem ingestSentences_queries (dict : List Char → Option Nat) :
    ∀ (ss : List (List Char)) (missing : List Char) (q : Nat),
      (ingestSentences dict ss missing q).2.2 =
        q + (ss.map (fun s => ((tokenize s).map (tokenQueries dict)).sum)).sum := by
  intro ss
  induction ss with
  | nil => intro missing q; simp [ingestSentences]
  | cons s ss ih =>
      intro missing q
      simp only [ingestSentences, ih, ingestTokensLoop_queries, List.map_cons,
        List.sum_cons]
      omega

/-- C1 (counterexample).  Ingesting the text 你好。 with an empty
dictionary issues four lookups (one per word token and one per fallback
character), not the single batched lookup the claim states. -/
theorem ingest_queries_not_batched_cex :
    ingest_text_queries (fun _ => none) "你好。".toList = 4 ∧
    ingest_text_queries (fun _ => none) "你好。".toList ≠ 1 := by
  constructor
  · decide
  · decide

/-- C1 (amended).  Lemma resolution during ingestion issues one
dictionary lookup per `word`-kind token, plus one further lookup per
constituent character when that token has no exact match, and none for
tokens of other kinds; there is no batched lookup. -/
theorem ingest_text_queries_per_token (dict : List Char → Option Nat)
    (text : List Char) :
    ingest_text_queries dict text =
      ((split_sentences text).map
        (fun s => ((tokenize s).map (tokenQueries dict)).sum)).sum := by
  simp [ingest_text_queries, ingestSentences_queries]

/-! Theorems about the fallback tokenizer. -/

/-- Concatenation of a list of strings. -/
def concatAll (ls : List (List Char)) : List Char := ls.foldr (· ++ ·) []

/-- With enough fuel the raw tokens of the fallback scanner concatenate
back to the input. -/
theorem scanRawFuel_flatten :
    ∀ (fuel : Nat) (l : List Char), l.length ≤ fuel →
      concatAll (scanRawFuel fuel l) = l := by
  intro fuel
  induction fuel with
  | zero =>
      intro l hl
      have : l = [] := List.eq_nil_of_length_eq_zero (Nat.le_zero.mp hl)
      subst this
      rfl
  | succ fuel ih =>
      intro l hl
      cases l with
      | nil => rfl
      | cons c rest =>
          have hrest : rest.length ≤ fuel := by
            simpa [Nat.succ_le_succ_iff] using hl
          by_cases hsp : isSpaceChar c
          · have hd : (rest.dropWhile isSpaceChar).length ≤ fuel :=
              le_trans (List.dropWhile_suffix _).sublist.length_le hrest
            simp only [scanRawFuel, hsp, if_pos, concatAll, List.foldr_cons]
            rw [show List.foldr (· ++ ·) [] (scanRawFuel fuel (rest.dropWhile isSpaceChar)) =
              concatAll (scanRawFuel fuel (rest.dropWhile isSpaceChar)) from rfl]
            rw [ih _ hd]
            simp [List.takeWhile_append_dropWhile]
          · by_cases hal : is_ascii_letter_or_digit c
            · have hd : (rest.dropWhile is_ascii_letter_or_digit).length ≤ fuel :=
                le_trans (List.dropWhile_suffix _).sublist.length_le hrest
              simp only [scanRawFuel, hsp, hal, if_pos, if_neg, Bool.false_eq_true,
                not_false_eq_true, concatAll, List.foldr_cons]
              rw [show List.foldr (· ++ ·) []
                (scanRawFuel fuel (rest.dropWhile is_ascii_letter_or_digit)) =
                concatAll (scanRawFuel fuel (rest.dropWhile is_ascii_letter_or_digit)) from rfl]
              rw [ih _ hd]
              simp [List.takeWhile_append_dropWhile]
            · simp only [scanRawFuel, hsp, hal, Bool.false_eq_true, not_false_eq_true,
                if_neg, concatAll, List.foldr_cons]
              rw [show List.foldr (· ++ ·) [] (scanRawFuel fuel rest) =
                concatAll (scanRawFuel fuel rest) from rfl]
              rw [ih _ hrest]
              rfl

/-- No raw token of the fallback scanner is empty. -/
theorem scanRawFuel_nonempty :
    ∀ (fuel : Nat) (l : List Char) (t : List Char),
      t ∈ scanRawFuel fuel l → t ≠ [] := by
  intro fuel
  induction fuel with
  | zero => intro l t ht; simp [scanRawFuel] at ht
  | succ fuel ih =>
      intro l t ht
      cases l with
      | nil => simp [scanRawFuel] at ht
      | cons c rest =>
          by_cases hsp : isSpaceChar c
          · simp only [scanRawFuel, hsp, if_pos, List.mem_cons] at ht
            rcases ht with rfl | ht
            · simp
            · exact ih _ _ ht
          · by_cases hal : is_ascii_letter_or_digit c
            · simp only [scanRawFuel, hsp, hal, Bool.false_eq_true, not_false_eq_true,
                if_neg, if_pos, List.mem_cons] at ht
              rcases ht with rfl | ht
              · simp
              · exact ih _ _ ht
            · simp only [scanRawFuel, hsp, hal, Bool.false_eq_true, not_false_eq_true,
                if_neg, List.mem_cons] at ht
              rcases ht with rfl | ht
              · simp
              · exact ih _ _ ht

/-- C2 (confirmed).  On the fallback path, the token texts returned by
`tokenize`, concatenated in order, equal the input exactly, and no
returned token text is empty. -/
theorem tokenize_partition (text : List Char) :
    concatAll ((tokenize text).map Prod.fst) = text ∧
    ∀ tk ∈ tokenize text, tk.1 ≠ [] := by
  have hne : ∀ t ∈ scanRaw text, t ≠ [] := by
    intro t ht
    exact scanRawFuel_nonempty _ _ _ ht
  have hfil : (scanRaw text).filter (fun t => !t.isEmpty) = scanRaw text := by
    rw [List.filter_eq_self]
    intro t ht
    simpa [List.isEmpty_iff] using hne t ht
  constructor
  · have hmap : ((tokenize text).map Prod.fst) = scanRaw text := by
      simp [tokenize, tokenizeRaw, hfil, List.map_map, Function.comp_def]
    rw [hmap]
    exact scanRawFuel_flatten _ _ (Nat.le_refl _)
  · intro tk htk
    simp only [tokenize, tokenizeRaw, hfil, List.mem_map] at htk
    obtain ⟨t, ht, rfl⟩ := htk
    exact hne t ht

/-! Theorems about the sentence splitter. -/

/-- No sentence-terminal character is whitespace. -/
theorem sent_end_not_space : ∀ c ∈ SENT_END, isSpaceChar c = false := by decide

/-- Stripping only removes characters of the string. -/
theorem mem_stripList {x : Char} {l : List Char} (h : x ∈ stripList l) : x ∈ l := by
  unfold stripList at h
  rw [List.mem_reverse] at h
  have h2 : x ∈ (l.dropWhile isSpaceChar).reverse :=
    (List.dropWhile_sublist _).subset h
  rw [List.mem_reverse] at h2
  exact (List.dropWhile_sublist _).subset h2

/-- Stripping a string that ends in a non-space character keeps that
character last and only removes a whitespace prefix. -/
theorem stripList_concat (xs : List Char) (c : Char) (hc : isSpaceChar c = false) :
    stripList (xs ++ [c]) = xs.dropWhile isSpaceChar ++ [c] := by
  unfold stripList
  rw [List.dropWhile_append]
  by_cases he : (xs.dropWhile isSpaceChar).isEmpty
  · rw [if_pos he]
    have hnil : xs.dropWhile isSpaceChar = [] := List.isEmpty_iff.mp he
    rw [hnil]
    simp [List.dropWhile_cons, hc]
  · rw [if_neg he]
    rw [List.reverse_append]
    simp only [List.reverse_cons, List.reverse_nil, List.nil_append,
      List.singleton_append]
    rw [List.dropWhile_cons]
    simp [hc]

/-- Soundness of the splitting loop: parts are non-empty, no part holds
a terminal character other than as its last character, and every part
except possibly the final one ends in a terminal character (invariant:
the running buffer holds no terminal character). -/
theorem splitAux_sound :
    ∀ (rest buf : List Char), (∀ c ∈ buf, c ∉ SENT_END) →
      (∀ p ∈ splitSentencesAux buf rest, p ≠ [] ∧ ∀ c ∈ p.dropLast, c ∉ SENT_END) ∧
      (∀ p ∈ (splitSentencesAux buf rest).dropLast,
        ∃ c, c ∈ SENT_END ∧ p.getLast? = some c) := by
  intro rest
  induction rest with
  | nil =>
      intro buf hbuf
      constructor
      · intro p hp
        simp only [splitSentencesAux] at hp
        by_cases he : (stripList buf).isEmpty
        · simp [he] at hp
        · simp only [he, Bool.false_eq_true, if_neg, not_false_eq_true,
            List.mem_singleton] at hp
          subst hp
          refine ⟨by simpa [List.isEmpty_iff] using he, ?_⟩
          intro c hc
          exact hbuf c (mem_stripList ((List.dropLast_sublist _).subset hc))
      · intro p hp
        simp only [splitSentencesAux] at hp
        by_cases he : (stripList buf).isEmpty
        · simp [he] at hp
        · simp [he] at hp
  | cons c rest ih =>
      intro buf hbuf
      by_cases hcs : c ∈ SENT_END
      · have hcns : isSpaceChar c = false := sent_end_not_space c hcs
        have hq : stripList (buf ++ [c]) = buf.dropWhile isSpaceChar ++ [c] :=
          stripList_concat buf c hcns
        have ihe := ih [] (by simp)
        constructor
        · intro p hp
          simp only [splitSentencesAux, if_pos hcs, List.mem_cons] at hp
          rcases hp with rfl | hp
          · constructor
            · rw [hq]; simp
            · rw [hq, List.dropLast_concat]
              intro x hx
              exact hbuf x ((List.dropWhile_sublist _).subset hx)
          · exact ihe.1 p hp
        · intro p hp
          simp only [splitSentencesAux, if_pos hcs] at hp
          cases hL : splitSentencesAux [] rest with
          | nil => rw [hL] at hp; simp at hp
          | cons q L =>
              rw [hL, List.dropLast_cons_of_ne_nil (by simp)] at hp
              rcases List.mem_cons.mp hp with rfl | hp
              · exact ⟨c, hcs, by rw [hq]; exact List.getLast?_concat _⟩
              · have := ihe.2 p (by rw [hL]; exact hp)
                exact this
      · have hext : ∀ x ∈ buf ++ [c], x ∉ SENT_END := by
          intro x hx
          rcases List.mem_append.mp hx with h | h
          · exact hbuf x h
          · rw [List.mem_singleton] at h; subst h; exact hcs
        have ihe := ih (buf ++ [c]) hext
        simpa [splitSentencesAux, hcs] using ihe

/-- C7 (counterexample).  The half-width period is not in `SENT_END`,
and `split_sentences` does not close a boundary at the period of
`a.b`: the whole text comes back as a single sentence. -/
theorem split_sentences_halfwidth_period_cex :
    ('.' ∉ SENT_END) ∧
    split_sentences ['a', '.', 'b'] = [['a', '.', 'b']] := by
  decide

/-- C7 (amended).  `split_sentences` closes a sentence exactly at the
characters of `SENT_END` — which holds the full-width period,
exclamation mark, question mark and semicolon, the half-width
exclamation mark, question mark and semicolon, and the interrobang, but
not the half-width period: every returned sentence is non-empty and
holds no terminal character before its last position, and every
returned sentence except possibly the final one ends in a terminal
character. -/
theorem split_sentences_boundary (text : List Char) :
    (∀ p ∈ split_sentences text, p ≠ [] ∧ ∀ c ∈ p.dropLast, c ∉ SENT_END) ∧
    (∀ p ∈ (split_sentences text).dropLast,
      ∃ c, c ∈ SENT_END ∧ p.getLast? = some c) ∧
    ('。' ∈ SENT_END ∧ '！' ∈ SENT_END ∧ '？' ∈ SENT_END ∧ '；' ∈ SENT_END ∧
      '!' ∈ SENT_END ∧ '?' ∈ SENT_END ∧ ';' ∈ SENT_END ∧ '‽' ∈ SENT_END ∧
      '.' ∉ SENT_END) := by
  have h := splitAux_sound (stripList text) [] (by simp)
  exact ⟨h.1, h.2, by decide⟩

/-! Theorems about token classification. -/

/-- No punctuation character is whitespace. -/
theorem punct_not_space : ∀ c ∈ PUNCT_CHARS, isSpaceChar c = false := by decide

/-- C8 (counterexample).  The two-character candidate substring formed
of two exclamation marks consists entirely of punctuation characters,
yet the classification loop tags it `word`, not `punct`: the membership
test `t in PUNCT_CHARS` only matches a single-character string. -/
theorem classify_multichar_punct_cex :
    classify ['!', '!'] = Kind.word ∧
    (['!', '!'].all (fun c => PUNCT_CHARS.contains c)) = true ∧
    classify ['!'] = Kind.punct ∧
    tokenizeRaw [['!', '!']] = [(['!', '!'], Kind.word)] := by
  decide

/-- C8 (amended).  A candidate substring is classified `punct` exactly
when it is a single character belonging to the fixed punctuation set;
a multi-character substring is never classified `punct`, even when
every one of its characters is in the set. -/
theorem classify_punct_iff (t : List Char) :
    classify t = Kind.punct ↔ ∃ c, t = [c] ∧ c ∈ PUNCT_CHARS := by
  constructor
  · intro h
    unfold classify at h
    by_cases hsp : pyIsSpace t
    · simp [hsp] at h
    · simp only [hsp, Bool.false_eq_true, if_neg, not_false_eq_true] at h
      by_cases hpu : inPunctChars t
      · match t, hpu with
        | [c], hpu =>
            refine ⟨c, rfl, ?_⟩
            simpa [inPunctChars, List.elem_iff] using hpu
      · simp only [hpu, Bool.false_eq_true, if_neg, not_false_eq_true] at h
        by_cases hdg : pyIsDigit t
        · simp [hdg] at h
        · simp only [hdg, Bool.false_eq_true, if_neg, not_false_eq_true] at h
          by_cases hlt : t.all is_ascii_letter_or_digit
          · simp [hlt] at h
          · simp [hlt] at h
  · rintro ⟨c, rfl, hc⟩
    have hns : isSpaceChar c = false := punct_not_space c hc
    have hsp : pyIsSpace [c] = false := by
      simp [pyIsSpace, hns]
    have hpu : inPunctChars [c] = true := by
      simpa [inPunctChars, List.elem_iff] using hc
    simp [classify, hsp, hpu]

/-- Witness for the amended C8: the single-character full-width period
is classified `punct` by the right-to-left direction of the theorem. -/
theorem classify_punct_iff_witness : classify ['。'] = Kind.punct :=
  (classify_punct_iff ['。']).mpr ⟨'。', rfl, by decide⟩

/-! Theorems about SRT timestamp parsing. -/

/-- A skipping loop never moves backwards. -/
theorem skipWhile_ge (p : List Char → Bool) (lines : List (List Char)) (i : Nat) :
    i ≤ skipWhile p lines i := by
  rw [skipWhile]
  split
  next h =>
    split
    next hp =>
      have ih := skipWhile_ge p lines (i + 1)
      omega
    next hp => exact Nat.le_refl i
  next h => exact Nat.le_refl i
termination_by lines.length - i
decreasing_by omega

/-- A skipping loop never moves past the end of the line list. -/
theorem skipWhile_le (p : List Char → Bool) (lines : List (List Char)) (i : Nat)
    (hi : i ≤ lines.length) : skipWhile p lines i ≤ lines.length := by
  rw [skipWhile]
  split
  next h =>
    split
    next hp => exact skipWhile_le p lines (i + 1) h
    next hp => exact hi
  next h => exact hi
termination_by lines.length - i
decreasing_by omega

/-- A skipping loop advances past an index satisfying the predicate. -/
theorem skipWhile_advance (p : List Char → Bool) (lines : List (List Char)) (i : Nat)
    (h : i < lines.length) (hp : p (lines.get ⟨i, h⟩) = true) :
    i + 1 ≤ skipWhile p lines i := by
  rw [skipWhile, dif_pos h, if_pos hp]
  exact skipWhile_ge p lines (i + 1)

/-- The line a skipping loop stops on (when any) fails the predicate. -/
theorem skipWhile_stop (p : List Char → Bool) (lines : List (List Char)) :
    ∀ (i : Nat) (l : List Char), lines[skipWhile p lines i]? = some l →
      p l = false := by
  intro i l hl
  by_cases h0 : i < lines.length
  · by_cases hp : p (lines.get ⟨i, h0⟩)
    · have e : skipWhile p lines i = skipWhile p lines (i + 1) := by
        rw [skipWhile, dif_pos h0, if_pos hp]
      rw [e] at hl
      exact skipWhile_stop p lines (i + 1) l hl
    · have e : skipWhile p lines i = i := by
        rw [skipWhile, dif_pos h0, if_neg hp]
      rw [e] at hl
      rw [List.getElem?_eq_getElem h0] at hl
      injection hl with hl
      subst hl
      simpa using hp
  · have e : skipWhile p lines i = i := by
      rw [skipWhile, dif_neg h0]
    rw [e] at hl
    rw [List.getElem?_eq_none (by omega)] at hl
    cases hl
termination_by i => lines.length - i
decreasing_by omega

/-- The optional index line moves the index by zero or one. -/
theorem idxAfterIndexLine_cases (lines : List (List Char)) (i : Nat) :
    idxAfterIndexLine lines i = i ∨ idxAfterIndexLine lines i = i + 1 := by
  unfold idxAfterIndexLine
  split
  · split
    · exact Or.inr rfl
    · exact Or.inl rfl
  · exact Or.inl rfl

/-- Every continuing iteration of the scanning loop strictly advances
the line index and stays within the line list. -/
theorem parseSrtStep_progress (lines : List (List Char)) (i : Nat) (cues : List Cue)
    (j : Nat) (cs : List Cue)
    (h : parseSrtStep lines i cues = .cont j cs) :
    i < j ∧ j ≤ lines.length := by
  unfold parseSrtStep at h
  have hge1 : i ≤ skipWhile isBlank lines i := skipWhile_ge isBlank lines i
  have hi2 := idxAfterIndexLine_cases lines (skipWhile isBlank lines i)
  by_cases h1 : skipWhile isBlank lines i < lines.length
  · rw [dif_pos h1] at h
    by_cases h2 : idxAfterIndexLine lines (skipWhile isBlank lines i) < lines.length
    · rw [dif_pos h2] at h
      by_cases ha : containsArrow (lines.get ⟨_, h2⟩)
      · rw [if_pos ha] at h
        dsimp only [] at h
        cases hts : parseTsLine (stripList (lines.get ⟨_, h2⟩)) with
        | none =>
            rw [hts] at h
            injection h with hj hcs
            subst hj
            have g1 := skipWhile_ge notBlank lines
              (idxAfterIndexLine lines (skipWhile isBlank lines i) + 1)
            have g2 := skipWhile_le notBlank lines
              (idxAfterIndexLine lines (skipWhile isBlank lines i) + 1) (by omega)
            exact ⟨by omega, g2⟩
        | some se =>
            obtain ⟨s, e⟩ := se
            rw [hts] at h
            simp only [] at h
            injection h with hj hcs
            subst hj
            have g1 := skipWhile_ge notBlank lines
              (idxAfterIndexLine lines (skipWhile isBlank lines i) + 1)
            have g3 := skipWhile_le notBlank lines
              (idxAfterIndexLine lines (skipWhile isBlank lines i) + 1) (by omega)
            have g2 := skipWhile_ge isBlank lines
              (skipWhile notBlank lines
                (idxAfterIndexLine lines (skipWhile isBlank lines i) + 1))
            have g4 := skipWhile_le isBlank lines
              (skipWhile notBlank lines
                (idxAfterIndexLine lines (skipWhile isBlank lines i) + 1)) g3
            exact ⟨by omega, g4⟩
      · rw [if_neg ha] at h
        injection h with hj hcs
        subst hj
        have hnb : notBlank (lines.get ⟨skipWhile isBlank lines i, h1⟩) = true := by
          have hstop := skipWhile_stop isBlank lines i
            (lines.get ⟨skipWhile isBlank lines i, h1⟩)
            (List.getElem?_eq_getElem h1)
          simp only [List.get_eq_getElem] at hstop
          simp [notBlank, hstop]
        have hadv := skipWhile_advance notBlank lines (skipWhile isBlank lines i) h1 hnb
        have g2 := skipWhile_le notBlank lines
          (idxAfterIndexLine lines (skipWhile isBlank lines i)) (by omega)
        rcases hi2 with he | he
        · rw [he] at g2 ⊢
          exact ⟨by omega, g2⟩
        · rw [he] at g2 ⊢
          have g1 := skipWhile_ge notBlank lines (skipWhile isBlank lines i + 1)
          exact ⟨by omega, g2⟩
    · rw [dif_neg h2] at h
      cases h
  · rw [dif_neg h1] at h
    cases h

/-- With fuel exceeding the remaining line count, the scanning loop
always ends with a cue list. -/
theorem parseSrtLoop_some (lines : List (List Char)) :
    ∀ (fuel i : Nat) (cues : List Cue), lines.length - i < fuel →
      ∃ cs, parseSrtLoop lines fuel i cues = some cs := by
  intro fuel
  induction fuel with
  | zero => intro i cues h; omega
  | succ fuel ih =>
      intro i cues hfi
      cases hstep : parseSrtStep lines i cues with
      | stop cs =>
          refine ⟨cs, ?_⟩
          rw [parseSrtLoop, hstep]
      | cont j cs =>
          have hp := parseSrtStep_progress lines i cues j cs hstep
          obtain ⟨out, hout⟩ := ih j cs (by omega)
          refine ⟨out, ?_⟩
          rw [parseSrtLoop, hstep]
          exact hout

/-- C10 (confirmed).  `parse_srt` is total: for every input the scanning
loop (run with fuel one more than the number of lines, which its strict
per-iteration progress never exhausts) returns a cue list, every
timestamp failure having been absorbed at its block; no run ends in the
fuel-out case. -/
theorem parse_srt_total (text : List Char) :
    ∃ cs, parse_srtChecked text = some cs ∧ parse_srt text = cs := by
  obtain ⟨cs, hcs⟩ := parseSrtLoop_some (srtLines text)
    ((srtLines text).length + 1) 0 [] (by omega)
  exact ⟨cs, hcs, by simp [parse_srt, parse_srtChecked] at hcs ⊢; simp [hcs]⟩

end Huistack
